import Mathlib

/-!
# Verification of the TCP/UDP file-share receiver

A shallow embedding of `internal/receiver/receiver.go` from the
`golang_fileshare_tcp_udp` repository, together with proofs about the
discovery parsing, the length-prefixed name frame, the destination
naming, and the chunked content-streaming loop.

Modelling conventions:

* A byte is a `Nat` (wire bytes are `< 256`; theorems that depend on byte
  range carry it as a hypothesis).
* The byte stream a TCP connection delivers before closing is a
  `List Nat`.  `io.ReadFull` blocks until the requested count or
  end-of-stream, so for the handshake phase only the total available
  bytes matter, not their arrival segmentation.
* The content phase reads with `con.Read` into a `chunkSize` buffer, so
  there the segmentation into individual read results matters; it is
  modelled as a list of data chunks followed by a terminal event
  (`Terminal`): a clean `io.EOF`, an `io.EOF` delivered together with
  final data (permitted by the `io.Reader` contract), or a read error.
* `os.File.Write` outcomes are modelled by a schedule
  `List (Option String)`: the head is the outcome of the next `Write`
  call (`none` = success, `some msg` = the error's text); an exhausted
  schedule means every remaining write succeeds.  A failed write is
  modelled as writing nothing.
* Go strings are `List Char` with each `Char` standing for one byte
  (Go's `string(bytes)` conversion is byte-preserving and the splitting
  and extension scans below are byte-level in the source).
-/

namespace FileShare

/-! ## Frame codec: `io.ReadFull` and `binary.LittleEndian.Uint32` -/

/-- `io.ReadFull(con, buf)` with `n = len(buf)` over a stream that will
deliver exactly `stream` before end-of-stream: returns the `n` bytes read
and the unconsumed remainder, or the error `io.ReadFull` reports —
`"EOF"` when no byte was available, `"unexpected EOF"` on a short read. -/
def readFull (stream : List Nat) (n : Nat) : Except String (List Nat × List Nat) :=
  if n ≤ stream.length then .ok (stream.take n, stream.drop n)
  else if stream.length = 0 then .error ("EOF")
  else .error ("unexpected EOF")

/-- `binary.LittleEndian.Uint32(b)`: the first four bytes assembled
little-endian.  Go computes `b[0] | b[1]<<8 | b[2]<<16 | b[3]<<24`; for
byte values the shifted fields are disjoint, so `|` is `+`. -/
def leUint32 (b : List Nat) : Nat :=
  b.getD 0 0 + b.getD 1 0 * 2 ^ 8 + b.getD 2 0 * 2 ^ 16 + b.getD 3 0 * 2 ^ 24

/-- The sender-side encoding the wire contract prescribes: a length
`L < 2^32` as four little-endian bytes. -/
def leEncode32 (L : Nat) : List Nat :=
  [L % 2 ^ 8, L / 2 ^ 8 % 2 ^ 8, L / 2 ^ 16 % 2 ^ 8, L / 2 ^ 24 % 2 ^ 8]

/-! ## Handshake: `receiveFileNameLen` and `receiveFileName` -/

/-- `Receiver.receiveFileNameLen`: `io.ReadFull` of a 4-byte buffer, then
`binary.LittleEndian.Uint32`.  Returns the decoded length and the
unconsumed stream, or the wrapped read error. -/
def receiveFileNameLen (stream : List Nat) : Except String (Nat × List Nat) :=
  match readFull stream 4 with
  | .error e => .error ("err receiving file name length: " ++ e)
  | .ok (lenBuf, rest) => .ok (leUint32 lenBuf, rest)

/-- `Receiver.receiveFileName`: read the 4-byte length, then `io.ReadFull`
of exactly that many name bytes.  Returns the name bytes and the
unconsumed stream, or the wrapped error of the failing phase. -/
def receiveFileName (stream : List Nat) : Except String (List Nat × List Nat) :=
  match receiveFileNameLen stream with
  | .error e => .error ("err receiving file name len: " ++ e)
  | .ok (fileNameLen, rest) =>
    match readFull rest fileNameLen with
    | .error e => .error ("err receiving file name: " ++ e)
    | .ok (nameBuf, rest2) => .ok (nameBuf, rest2)

/-! ## Content phase: `receiveAndSaveFileContent` -/

/-- How the content-phase read sequence ends.  Each `con.Read` before the
terminal returns data with a `nil` error; the terminal read returns
either `(0, io.EOF)`, data together with `io.EOF` (the `io.Reader`
contract allows a reader to deliver its final bytes and `io.EOF` in one
call), or some other error. -/
inductive Terminal where
  | eof
  | eofWith (data : List Nat)
  | fail (msg : String)
deriving DecidableEq

/-- The observable outcome of the content loop: the bytes the destination
file holds afterwards, the `totalBytesReceived` counter, and the error
returned (`none` = the function returned `nil`). -/
structure ContentOutcome where
  file : List Nat
  total : Nat
  result : Option String
deriving DecidableEq

/-- The `for` loop of `Receiver.receiveAndSaveFileContent`, one iteration
per `con.Read`.  `wp` is the write schedule (head = outcome of the next
`file.Write`; exhausted = success).  The source checks the read error
before using `bytesRead` — on `io.EOF` it `break`s at once, so data
delivered together with `io.EOF` is never written — and on a successful
read it first adds `bytesRead` to the counter and then writes the slice
`chunk[:bytesRead]`, returning the wrapped error if the write fails. -/
def contentLoop : List (Option String) → List (List Nat) → Terminal →
    List Nat → Nat → ContentOutcome
  | _, [], .eof, file, total => ⟨file, total, none⟩
  | _, [], .eofWith _, file, total => ⟨file, total, none⟩
  | _, [], .fail msg, file, total =>
      ⟨file, total, some ("err receiving file chunk: " ++ msg)⟩
  | some msg :: _, c :: _, _, file, total =>
      ⟨file, total + c.length, some ("err writing chunk to the file: " ++ msg)⟩
  | none :: wrest, c :: rest, term, file, total =>
      contentLoop wrest rest term (file ++ c) (total + c.length)
  | [], c :: rest, term, file, total =>
      contentLoop [] rest term (file ++ c) (total + c.length)

/-- `Receiver.receiveAndSaveFileContent`: run the read/write loop on an
empty destination file with the byte counter at zero. -/
def receiveAndSaveFileContent (wp : List (Option String))
    (chunks : List (List Nat)) (term : Terminal) : ContentOutcome :=
  contentLoop wp chunks term [] 0

/-! ## Destination naming: `path.Ext` and `prepareDestFilePath` -/

/-- The scan of Go's `path.Ext`, acting on the reversed name: walk from
the last character towards the front, stopping at a `'/'` with no
extension, or at a `'.'` with the suffix from that dot on.  `acc` holds
the characters already passed, in forward order. -/
def pathExtAux : List Char → List Char → List Char
  | [], _acc => []
  | c :: rest, acc =>
    if c = '/' then []
    else if c = '.' then c :: acc
    else pathExtAux rest (c :: acc)

/-- Go's `path.Ext(p)`: the suffix beginning at the final dot in the final
slash-separated element of `p`, or empty if there is none. -/
def pathExt (p : List Char) : List Char :=
  pathExtAux p.reverse []

/-- `Receiver.prepareDestFilePath`: `fmt.Sprintf("%d%s", time.Now().Unix(),
path.Ext(filePath))` with the timestamp passed in explicitly. -/
def prepareDestFilePath (ts : Nat) (filePath : List Char) : List Char :=
  Nat.toDigits 10 ts ++ pathExt filePath

/-- Spec-side formulation: the substring of `s` from (and including) its
last `'.'` to the end, or empty if `s` has no `'.'`. -/
def lastDotSuffix (s : List Char) : List Char :=
  if '.' ∈ s then '.' :: (s.reverse.takeWhile (fun c => c ≠ '.')).reverse
  else []

/-- Spec-side formulation: the final path component of `s` — the part
after the last `'/'`, or all of `s` if it has none. -/
def lastComponent (s : List Char) : List Char :=
  (s.reverse.takeWhile (fun c => c ≠ '/')).reverse

/-! ## Discovery: `Receiver.discover` -/

/-- Go's `strings.Split(s, " ")`: split at every single space character,
keeping empty fields; always at least one field.  `acc` holds the
current field, reversed. -/
def splitOnSpaceAux : List Char → List Char → List (List Char)
  | [], acc => [acc.reverse]
  | c :: rest, acc =>
    if c = ' ' then acc.reverse :: splitOnSpaceAux rest []
    else splitOnSpaceAux rest (c :: acc)

/-- `strings.Split(s, " ")`. -/
def splitOnSpace (s : List Char) : List (List Char) :=
  splitOnSpaceAux s []

/-- The datagram-parsing tail of `Receiver.discover`: `ReadFromUDP` into a
1024-byte buffer truncates the datagram to its first 1024 bytes; the
message is split on `" "`, the last section is taken as the port, and
the result is `fmt.Sprintf("localhost:%s", port)`. -/
def discover (datagram : List Char) : List Char :=
  let message := datagram.take 1024
  let messageSections := splitOnSpace message
  let port := messageSections.getLastD []
  "localhost:".toList ++ port

/-- Spec-side formulation of the last-token rule for a single-space
split: the characters after the last `' '` of `s`, or all of `s` when it
has no space. -/
def afterLastSpace (s : List Char) : List Char :=
  (s.reverse.takeWhile (fun c => c ≠ ' ')).reverse

/-! ## Session composition: `receiveFile` and `Handle` -/

/-- The observable outcome of `Receiver.receiveFile`: whether
`os.Create` ran (it does not when the handshake fails), the destination
path chosen, the bytes in the destination file, the content-phase byte
counter, and the error returned. -/
structure SessionOutcome where
  fileCreated : Bool
  fileName : Option (List Char)
  fileContents : List Nat
  total : Nat
  result : Option String
deriving DecidableEq

/-- `Receiver.receiveFile`: receive the name frame from `stream`; on
failure return the wrapped error with no destination file created.
Otherwise derive the destination path (`os.Create` is modelled as
succeeding), run the content loop over `chunks`/`term`, and wrap its
error if any.  `string(nameBuf)` is modelled by mapping each byte to the
character with that code point. -/
def receiveFile (wp : List (Option String)) (ts : Nat) (stream : List Nat)
    (chunks : List (List Nat)) (term : Terminal) : SessionOutcome :=
  match receiveFileName stream with
  | .error e => ⟨false, none, [], 0, some ("err receiving file name: " ++ e)⟩
  | .ok (nameBuf, _rest) =>
    let destFilePath := prepareDestFilePath ts ((nameBuf.map Char.ofNat))
    let c := receiveAndSaveFileContent wp chunks term
    match c.result with
    | some e => ⟨true, some destFilePath, c.file, c.total,
        some ("err receiving and saving file content: " ++ e)⟩
    | none => ⟨true, some destFilePath, c.file, c.total, none⟩

/-- The peer loop of `Receiver.Handle`: for each peer, `net.Dial`; on
dial failure log and `continue`; otherwise run the transfer session
(returning its wrapped error if it fails), then `con.Close` (returning
its wrapped error if it fails), and move to the next peer. -/
def handleLoop (dialOk : List Char → Bool) (session : List Char → Option String)
    (closeErr : List Char → Option String) : List (List Char) → Option String
  | [] => none
  | peer :: rest =>
    if dialOk peer then
      match session peer with
      | some e => some ("err receiving file: " ++ e)
      | none =>
        match closeErr peer with
        | some e => some ("err closing connection: " ++ e)
        | none => handleLoop dialOk session closeErr rest
    else handleLoop dialOk session closeErr rest

/-- `Receiver.Handle`: discover one peer (its result passed in), wrap a
discovery failure, otherwise run the peer loop over the singleton peer
list. -/
def Handle (discovery : Except String (List Char)) (dialOk : List Char → Bool)
    (session : List Char → Option String)
    (closeErr : List Char → Option String) : Option String :=
  match discovery with
  | .error e => some ("err searching for discovery msg: " ++ e)
  | .ok peer => handleLoop dialOk session closeErr [peer]

end FileShare

namespace FileShare

/-! ## Round-trip framing (C3 groundwork) -/

theorem leEncode32_length (L : Nat) : (leEncode32 L).length = 4 := rfl

theorem leUint32_leEncode32 (L : Nat) (hL : L < 2 ^ 32) :
    leUint32 (leEncode32 L) = L := by
  simp only [leUint32, leEncode32, List.getD_cons_zero, List.getD_cons_succ]
  omega

/-! ## Content-loop unrolling lemmas -/

/-- With every write succeeding, a stream ending in a clean `io.EOF`
copies all chunks, in order, and returns no error. -/
theorem contentLoop_eof (chunks : List (List Nat)) :
    ∀ (file : List Nat) (total : Nat),
      contentLoop [] chunks Terminal.eof file total =
        ⟨file ++ chunks.flatten, total + chunks.flatten.length, none⟩ := by
  induction chunks with
  | nil => intro file total; simp [contentLoop]
  | cons c rest ih =>
    intro file total
    simp [contentLoop, ih, List.append_assoc, Nat.add_assoc]

/-- With every write succeeding, a stream ending in a read error copies
all chunks and then returns the wrapped read error. -/
theorem contentLoop_fail (chunks : List (List Nat)) (msg : String) :
    ∀ (file : List Nat) (total : Nat),
      contentLoop [] chunks (Terminal.fail msg) file total =
        ⟨file ++ chunks.flatten, total + chunks.flatten.length,
          some ("err receiving file chunk: " ++ msg)⟩ := by
  induction chunks with
  | nil => intro file total; simp [contentLoop]
  | cons c rest ih =>
    intro file total
    simp [contentLoop, ih, List.append_assoc, Nat.add_assoc]

/-- When the `j`-th write fails (all earlier ones succeeding) and at
least `j + 1` chunks arrive, the loop stops at the failing write: the
file keeps exactly the first `j` chunks, the byte counter also counts
the chunk whose write failed, and the wrapped write error is returned. -/
theorem contentLoop_writeFail (wmsg : String) :
    ∀ (j : Nat) (chunks : List (List Nat)) (term : Terminal)
      (file : List Nat) (total : Nat), j < chunks.length →
      contentLoop (List.replicate j none ++ [some wmsg]) chunks term file total =
        ⟨file ++ (chunks.take j).flatten,
          total + ((chunks.take j).flatten).length + (chunks.getD j []).length,
          some ("err writing chunk to the file: " ++ wmsg)⟩ := by
  intro j
  induction j with
  | zero =>
    intro chunks term file total h
    match chunks with
    | [] => simp at h
    | c :: rest => simp [contentLoop]
  | succ j ih =>
    intro chunks term file total h
    match chunks with
    | [] => simp at h
    | c :: rest =>
      have hj : j < rest.length := by simpa using h
      have step :
          contentLoop (List.replicate (j + 1) none ++ [some wmsg]) (c :: rest)
              term file total =
            contentLoop (List.replicate j none ++ [some wmsg]) rest term
              (file ++ c) (total + c.length) := by
        rw [List.replicate_succ, List.cons_append, contentLoop]
      rw [step, ih rest term (file ++ c) (total + c.length) hj]
      simp only [List.take_succ_cons, List.flatten_cons, List.getD_cons_succ,
        List.append_assoc, List.length_append, ContentOutcome.mk.injEq]
      exact ⟨trivial, by omega, trivial⟩

/-! ## Claim theorems -/

/-- C1 (counterexample): a content stream whose single read delivers the
byte `7` together with the end-of-stream signal — permitted by the
`io.Reader` contract the loop reads through — ends with an empty
destination file: the byte fed into the stream is never written, so the
bytes written do not equal the bytes fed. -/
theorem streaming_fidelity_cex :
    (receiveAndSaveFileContent [] [] (Terminal.eofWith [7])).file = []
    ∧ (receiveAndSaveFileContent [] [] (Terminal.eofWith [7])).file ≠ [7] := by
  decide

/-- C1 (amended): for every content stream split into arbitrary chunk
boundaries not exceeding the configured chunk size (including final
chunks shorter than the chunk size and a chunk size larger than the
total content), *provided the end-of-stream signal arrives on a read
that returns no data*, the bytes written to the destination exactly
equal, in order, the bytes fed into the stream, the total byte count
matches, and no error is reported.  Bytes a read returns together with
the end-of-stream signal are discarded, not written
(`streaming_fidelity_cex`). -/
theorem streaming_fidelity_eof (chunkSize : Nat) (chunks : List (List Nat))
    (hsize : ∀ c ∈ chunks, c.length ≤ chunkSize) :
    (receiveAndSaveFileContent [] chunks Terminal.eof).file = chunks.flatten
    ∧ (receiveAndSaveFileContent [] chunks Terminal.eof).total = chunks.flatten.length
    ∧ (receiveAndSaveFileContent [] chunks Terminal.eof).result = none := by
  simp [receiveAndSaveFileContent, contentLoop_eof]

/-- Witness for `streaming_fidelity_eof`: content `[1,2,3]` delivered as
a full chunk `[1,2]` and a short final chunk `[3]` under chunk size 2. -/
theorem streaming_fidelity_eof_witness :
    (∀ c ∈ [[1, 2], [3]], List.length c ≤ 2)
    ∧ ((receiveAndSaveFileContent [] [[1, 2], [3]] Terminal.eof).file
          = List.flatten [[1, 2], [3]]
      ∧ (receiveAndSaveFileContent [] [[1, 2], [3]] Terminal.eof).total
          = (List.flatten [[1, 2], [3]]).length
      ∧ (receiveAndSaveFileContent [] [[1, 2], [3]] Terminal.eof).result = none) :=
  ⟨by decide, streaming_fidelity_eof 2 [[1, 2], [3]] (by decide)⟩

/-- C3: for every length `L ≤ 2^32 − 1`, encoding `L` as a 4-byte
little-endian unsigned integer followed by the `L` payload bytes and
decoding with the receiver's length decoder reproduces exactly `L`, and
the subsequent exact read of `L` bytes reproduces the exact payload,
leaving the rest of the stream unconsumed. -/
theorem name_frame_round_trip (L : Nat) (payload rest : List Nat)
    (hL : L < 2 ^ 32) (hlen : payload.length = L) :
    receiveFileNameLen (leEncode32 L ++ (payload ++ rest))
        = .ok (L, payload ++ rest)
    ∧ receiveFileName (leEncode32 L ++ (payload ++ rest)) = .ok (payload, rest) := by
  have h4 : readFull (leEncode32 L ++ (payload ++ rest)) 4
      = .ok (leEncode32 L, payload ++ rest) := by
    rw [readFull, if_pos (by simp [leEncode32]),
      List.take_left' (leEncode32_length L), List.drop_left' (leEncode32_length L)]
  have hlenOk : receiveFileNameLen (leEncode32 L ++ (payload ++ rest))
      = .ok (L, payload ++ rest) := by
    simp only [receiveFileNameLen, h4, leUint32_leEncode32 L hL]
  have h5 : readFull (payload ++ rest) L = .ok (payload, rest) := by
    rw [readFull, if_pos (by simp [hlen]),
      List.take_left' hlen, List.drop_left' hlen]
  refine ⟨hlenOk, ?_⟩
  simp only [receiveFileName, hlenOk, h5]

/-- Witness for `name_frame_round_trip`: the name `abc` (length 3)
followed by two content bytes. -/
theorem name_frame_round_trip_witness :
    receiveFileNameLen (leEncode32 3 ++ ([97, 98, 99] ++ [1, 2]))
        = .ok (3, [97, 98, 99] ++ [1, 2])
    ∧ receiveFileName (leEncode32 3 ++ ([97, 98, 99] ++ [1, 2]))
        = .ok ([97, 98, 99], [1, 2]) :=
  name_frame_round_trip 3 [97, 98, 99] [1, 2] (by norm_num) rfl

/-- C6: in the content phase a clean end-of-stream signal is not treated
as an error — it is the sole condition that terminates the loop (every
delivered chunk is consumed and written first) and the phase then
completes with no error — while every other read error is fatal,
surfacing as the wrapped chunk-read error. -/
theorem content_eof_termination (chunks : List (List Nat)) (msg : String) :
    ((receiveAndSaveFileContent [] chunks Terminal.eof).result = none
      ∧ (receiveAndSaveFileContent [] chunks Terminal.eof).file = chunks.flatten)
    ∧ (receiveAndSaveFileContent [] chunks (Terminal.fail msg)).result
        = some ("err receiving file chunk: " ++ msg) := by
  simp [receiveAndSaveFileContent, contentLoop_eof, contentLoop_fail]

/-- C8: when the single discovered peer is unreachable at dial time, the
peer is skipped and the loop continues with the remaining peers (none):
`Handle` returns no error, whatever the transfer session or connection
close would have done — in particular no session step runs for the
failed peer. -/
theorem connect_failure_skipped (peer : List Char)
    (session closeErr : List Char → Option String) :
    Handle (Except.ok peer) (fun _ => false) session closeErr = none := by
  simp [Handle, handleLoop]

/-- C7: when the content phase fails — a read error after all delivered
chunks were written, or a write error on the `j`-th write — the session
propagates the wrapped error and the bytes already written remain as the
destination file's contents: all delivered chunks in the read-error
case, exactly the first `j` chunks in the write-error case.  No rollback
or cleanup of partial output is performed. -/
theorem content_failure_keeps_bytes (ts : Nat) (stream nm rest : List Nat)
    (chunks : List (List Nat)) (term : Terminal) (msg wmsg : String) (j : Nat)
    (hname : receiveFileName stream = .ok (nm, rest)) (hj : j < chunks.length) :
    receiveFile [] ts stream chunks (Terminal.fail msg) =
      ⟨true, some (prepareDestFilePath ts (nm.map Char.ofNat)),
        chunks.flatten, chunks.flatten.length,
        some ("err receiving and saving file content: "
          ++ ("err receiving file chunk: " ++ msg))⟩
    ∧ receiveFile (List.replicate j none ++ [some wmsg]) ts stream chunks term =
      ⟨true, some (prepareDestFilePath ts (nm.map Char.ofNat)),
        (chunks.take j).flatten,
        ((chunks.take j).flatten).length + (chunks.getD j []).length,
        some ("err receiving and saving file content: "
          ++ ("err writing chunk to the file: " ++ wmsg))⟩ := by
  constructor
  · simp [receiveFile, hname, receiveAndSaveFileContent, contentLoop_fail]
  · simp [receiveFile, hname, receiveAndSaveFileContent,
      contentLoop_writeFail wmsg j chunks term [] 0 hj]

/-- Witness for `content_failure_keeps_bytes`: an empty name frame, two
delivered chunks, a failing second write (`j = 1`). -/
theorem content_failure_keeps_bytes_witness :
    receiveFile [] 5 [0, 0, 0, 0] [[1], [2, 3]] (Terminal.fail ("conn reset")) =
      ⟨true, some (prepareDestFilePath 5 (List.map Char.ofNat [])),
        List.flatten [[1], [2, 3]], (List.flatten [[1], [2, 3]]).length,
        some ("err receiving and saving file content: "
          ++ ("err receiving file chunk: " ++ "conn reset"))⟩
    ∧ receiveFile (List.replicate 1 none ++ [some ("disk full")]) 5 [0, 0, 0, 0]
        [[1], [2, 3]] Terminal.eof =
      ⟨true, some (prepareDestFilePath 5 (List.map Char.ofNat [])),
        (List.take 1 [[1], [2, 3]]).flatten,
        ((List.take 1 [[1], [2, 3]]).flatten).length
          + (List.getD [[1], [2, 3]] 1 []).length,
        some ("err receiving and saving file content: "
          ++ ("err writing chunk to the file: " ++ "disk full"))⟩ :=
  content_failure_keeps_bytes 5 [0, 0, 0, 0] [] [] [[1], [2, 3]] Terminal.eof
    ("conn reset") ("disk full") 1 rfl (by decide)

/-- C2: a connection that closes after fewer than 4 bytes in the
name-length phase, or that declares a name length `N` and closes after
fewer than `N` name bytes (together: the stream holds fewer than
`4 + N` bytes), makes the session fail with the wrapped read error of
the corresponding phase; no destination file is created and no content
bytes are written, whatever content-phase events would have followed. -/
theorem truncated_handshake (wp : List (Option String)) (ts : Nat)
    (stream : List Nat) (chunks : List (List Nat)) (term : Terminal)
    (h : stream.length < 4 + leUint32 (stream.take 4)) :
    receiveFile wp ts stream chunks term =
      ⟨false, none, [], 0,
        some (if stream.length < 4 then
          "err receiving file name: " ++ ("err receiving file name len: "
            ++ ("err receiving file name length: "
              ++ (if stream.length = 0 then "EOF" else "unexpected EOF")))
        else
          "err receiving file name: " ++ ("err receiving file name: "
            ++ (if stream.length = 4 then "EOF" else "unexpected EOF")))⟩ := by
  by_cases h4 : 4 ≤ stream.length
  · have hshort : ¬ leUint32 (stream.take 4) ≤ (stream.drop 4).length := by
      rw [List.length_drop]; omega
    have hr : readFull stream 4 = .ok (stream.take 4, stream.drop 4) := by
      rw [readFull, if_pos h4]
    have hrest : readFull (stream.drop 4) (leUint32 (stream.take 4))
        = .error (if stream.length = 4 then "EOF" else "unexpected EOF") := by
      rw [readFull, if_neg hshort, List.length_drop]
      by_cases he : stream.length = 4
      · rw [if_pos (by omega), if_pos he]
      · rw [if_neg (by omega), if_neg he]
    simp only [receiveFile, receiveFileName, receiveFileNameLen, hr, hrest,
      if_neg (by omega : ¬ stream.length < 4)]
  · have hr : readFull stream 4
        = .error (if stream.length = 0 then "EOF" else "unexpected EOF") := by
      rw [readFull, if_neg (by omega)]
      by_cases he : stream.length = 0
      · rw [if_pos he, if_pos he]
      · rw [if_neg he, if_neg he]
    simp only [receiveFile, receiveFileName, receiveFileNameLen, hr,
      if_pos (by omega : stream.length < 4)]

/-- Witness for `truncated_handshake`: a name frame declaring length 1
whose connection closes before delivering any name byte. -/
theorem truncated_handshake_witness :
    receiveFile [] 0 [1, 0, 0, 0] [] Terminal.eof =
      ⟨false, none, [], 0,
        some (if List.length [1, 0, 0, 0] < 4 then
          "err receiving file name: " ++ ("err receiving file name len: "
            ++ ("err receiving file name length: "
              ++ (if List.length [1, 0, 0, 0] = 0 then "EOF" else "unexpected EOF")))
        else
          "err receiving file name: " ++ ("err receiving file name: "
            ++ (if List.length [1, 0, 0, 0] = 4 then "EOF" else "unexpected EOF")))⟩ :=
  truncated_handshake [] 0 [1, 0, 0, 0] [] Terminal.eof (by decide)

/-- C10: a name frame declaring length 0 succeeds with an empty file
name: the handshake does not fail, the derived extension is empty, the
destination name is the bare decimal Unix timestamp, and the session
proceeds directly to the content phase, whose outcome (file bytes,
counter, wrapped error if any) becomes the session's outcome. -/
theorem empty_name_frame (wp : List (Option String)) (ts : Nat) (rest : List Nat)
    (chunks : List (List Nat)) (term : Terminal) :
    receiveFile wp ts (0 :: 0 :: 0 :: 0 :: rest) chunks term =
      ⟨true, some (Nat.toDigits 10 ts),
        (receiveAndSaveFileContent wp chunks term).file,
        (receiveAndSaveFileContent wp chunks term).total,
        Option.map (fun e => "err receiving and saving file content: " ++ e)
          (receiveAndSaveFileContent wp chunks term).result⟩ := by
  have hname : receiveFileName (0 :: 0 :: 0 :: 0 :: rest) = .ok ([], rest) := by
    have hr : readFull (0 :: 0 :: 0 :: 0 :: rest) 4 = .ok ([0, 0, 0, 0], rest) := by
      rw [readFull, if_pos (by simp)]
      simp
    have hr0 : readFull rest 0 = .ok ([], rest) := by
      rw [readFull, if_pos (Nat.zero_le _)]
      simp
    have hl : leUint32 [0, 0, 0, 0] = 0 := rfl
    simp only [receiveFileName, receiveFileNameLen, hr, hl, hr0]
  cases hres : (receiveAndSaveFileContent wp chunks term).result with
  | none =>
    simp [receiveFile, hname, hres, prepareDestFilePath, pathExt, pathExtAux]
  | some e =>
    simp [receiveFile, hname, hres, prepareDestFilePath, pathExt, pathExtAux]

/-! ## Discovery-parsing lemmas -/

/-- `takeWhile` over an append stops inside the left part as soon as the
left part holds an element failing the predicate. -/
theorem takeWhile_append_stop {α : Type} {p : α → Bool} (l₁ l₂ : List α)
    (x : α) (hx : x ∈ l₁) (hpx : ¬ p x) :
    (l₁ ++ l₂).takeWhile p = l₁.takeWhile p := by
  induction l₁ with
  | nil => cases hx
  | cons a t ih =>
    rw [List.cons_append, List.takeWhile_cons, List.takeWhile_cons]
    cases hpa : p a
    · rfl
    · have hxt : x ∈ t := by
        rcases List.mem_cons.mp hx with h | h
        · subst h; rw [hpa] at hpx; exact absurd rfl hpx
        · exact h
      rw [ih hxt]

/-- The final token of a single-space split, seen from the end: with a
space inside the list, the head character does not matter. -/
theorem afterLastSpace_cons_of_mem (c : Char) (rest : List Char)
    (h : ' ' ∈ rest) :
    afterLastSpace (c :: rest) = afterLastSpace rest := by
  unfold afterLastSpace
  rw [List.reverse_cons,
    takeWhile_append_stop rest.reverse [c] ' ' (List.mem_reverse.mpr h) (by simp)]

/-- With no space in the tail, the final token of a single-space split is
the tail itself when the head is the space, else the whole list. -/
theorem afterLastSpace_cons_of_not_mem (c : Char) (rest : List Char)
    (h : ' ' ∉ rest) :
    afterLastSpace (c :: rest) = if c = ' ' then rest else c :: rest := by
  unfold afterLastSpace
  rw [List.reverse_cons, List.takeWhile_append_of_pos (by
    intro a ha
    simp only [ne_eq, decide_eq_true_eq]
    intro hEq
    exact h (hEq ▸ List.mem_reverse.mp ha))]
  by_cases hc : c = ' '
  · subst hc
    simp [List.takeWhile_cons]
  · simp [List.takeWhile_cons, hc]

/-- A list with no space is its own final token. -/
theorem afterLastSpace_of_not_mem (s : List Char) (h : ' ' ∉ s) :
    afterLastSpace s = s := by
  unfold afterLastSpace
  rw [List.takeWhile_eq_self_iff.mpr (by
    intro x hx
    simp only [ne_eq, decide_eq_true_eq]
    intro hEq
    exact h (hEq ▸ List.mem_reverse.mp hx))]
  exact List.reverse_reverse s

/-- The split of `strings.Split` never produces an empty list of fields. -/
theorem splitOnSpaceAux_ne_nil (s : List Char) :
    ∀ acc, splitOnSpaceAux s acc ≠ [] := by
  induction s with
  | nil => intro acc; simp [splitOnSpaceAux]
  | cons c rest ih =>
    intro acc
    by_cases hc : c = ' ' <;> simp [splitOnSpaceAux, hc, ih]

/-- The last field of the split accumulated from `acc`: the suffix after
the last space when `s` has one, otherwise `acc` (reversed) glued to
`s`. -/
theorem splitOnSpaceAux_getLastD (s : List Char) :
    ∀ acc, (splitOnSpaceAux s acc).getLastD [] =
      if ' ' ∈ s then afterLastSpace s else acc.reverse ++ s := by
  induction s with
  | nil =>
    intro acc
    simp [splitOnSpaceAux]
  | cons c rest ih =>
    intro acc
    by_cases hc : c = ' '
    · subst hc
      have hs : splitOnSpaceAux (' ' :: rest) acc
          = acc.reverse :: splitOnSpaceAux rest [] := by
        simp [splitOnSpaceAux]
      rw [hs, List.getLastD_cons]
      obtain ⟨hd, tl, hshape⟩ : ∃ hd tl, splitOnSpaceAux rest [] = hd :: tl := by
        cases hl : splitOnSpaceAux rest [] with
        | nil => exact absurd hl (splitOnSpaceAux_ne_nil rest [])
        | cons hd tl => exact ⟨hd, tl, rfl⟩
      have hIH := ih []
      rw [hshape, List.getLastD_cons] at hIH ⊢
      rw [hIH, if_pos (List.mem_cons_self _ _)]
      by_cases hmem : ' ' ∈ rest
      · rw [if_pos hmem, afterLastSpace_cons_of_mem ' ' rest hmem]
      · rw [if_neg hmem, afterLastSpace_cons_of_not_mem ' ' rest hmem,
          if_pos rfl]
        simp
    · have hs : splitOnSpaceAux (c :: rest) acc
          = splitOnSpaceAux rest (c :: acc) := by
        simp [splitOnSpaceAux, hc]
      rw [hs, ih (c :: acc)]
      have hiff : (' ' ∈ c :: rest) ↔ (' ' ∈ rest) := by
        constructor
        · intro hmem
          rcases List.mem_cons.mp hmem with h | h
          · exact absurd h.symm hc
          · exact h
        · exact fun h => List.mem_cons_of_mem _ h
      by_cases hmem : ' ' ∈ rest
      · rw [if_pos hmem, if_pos (hiff.mpr hmem),
          afterLastSpace_cons_of_mem c rest hmem]
      · rw [if_neg hmem, if_neg (fun h => hmem (hiff.mp h))]
        simp

/-- The last field of `strings.Split(s, " ")` is exactly the suffix of
`s` after its last space (all of `s` when it has none). -/
theorem getLastD_splitOnSpace (s : List Char) :
    (splitOnSpace s).getLastD [] = afterLastSpace s := by
  rw [splitOnSpace, splitOnSpaceAux_getLastD]
  by_cases h : ' ' ∈ s
  · rw [if_pos h]
  · rw [if_neg h, afterLastSpace_of_not_mem s h]
    simp

/-- C4 (counterexample): the datagram text `"HELLO\t51234"` separates its
two tokens by a tab, which is whitespace; splitting on whitespace and
taking the final token would give `"localhost:51234"`, but `discover`
splits on the space character only and produces
`"localhost:HELLO\t51234"`. -/
theorem discovery_parsing_cex :
    discover ("HELLO\t51234".toList) ≠ "localhost:51234".toList
    ∧ discover ("HELLO\t51234".toList)
        = "localhost:HELLO\t51234".toList := by
  decide

/-- C4 (amended): `discover` parses the datagram text, splits on the
*space character `' '` only* (not general whitespace), takes the final
token as the service port, and produces `"localhost:<port>"`; datagram
text `"HELLO 51234"` yields `"localhost:51234"`, and the single-token
datagram `"51234"` yields the same result. -/
theorem discovery_parsing_space_split (d : List Char) :
    discover d = "localhost:".toList ++ afterLastSpace (d.take 1024)
    ∧ discover ("HELLO 51234".toList) = "localhost:51234".toList
    ∧ discover ("51234".toList) = "localhost:51234".toList := by
  refine ⟨?_, by decide, by decide⟩
  simp only [discover, getLastD_splitOnSpace]

/-- C9: the discovery buffer is 1024 bytes, so only the first 1024 bytes
of the announcement datagram reach the parser: two datagrams agreeing on
that prefix yield the same discovered address, and any datagram yields
the same address as its own 1024-byte prefix. -/
theorem discovery_first_1024_only (d₁ d₂ : List Char)
    (h : d₁.take 1024 = d₂.take 1024) :
    discover d₁ = discover d₂ ∧ discover d₁ = discover (d₁.take 1024) := by
  constructor
  · simp only [discover]
    rw [h]
  · simp only [discover]
    rw [List.take_take, Nat.min_self]

/-- Witness for `discovery_first_1024_only`: a 1025-byte datagram and a
different 1025-byte datagram sharing its first 1024 bytes. -/
theorem discovery_first_1024_only_witness :
    discover (List.replicate 1025 'a') = discover (List.replicate 1024 'a' ++ ['b'])
    ∧ discover (List.replicate 1025 'a')
        = discover ((List.replicate 1025 'a').take 1024) :=
  discovery_first_1024_only (List.replicate 1025 'a') (List.replicate 1024 'a' ++ ['b'])
    (by
      rw [List.replicate_succ' 1024 'a',
        List.take_left' (List.length_replicate 1024 'a'),
        List.take_left' (List.length_replicate 1024 'a')])

/-! ## Extension-extraction lemmas -/

/-- Closed form of the `path.Ext` scan over the reversed name: restrict
to the characters before the first `'/'` (from the end, that is the last
path component); if a `'.'` occurs there, the result is that dot
followed by the characters scanned before it (plus the accumulator),
otherwise empty. -/
theorem pathExtAux_eq (r : List Char) : ∀ acc,
    pathExtAux r acc =
      if '.' ∈ r.takeWhile (fun c => c ≠ '/') then
        '.' :: ((r.takeWhile (fun c => c ≠ '/')).takeWhile (fun c => c ≠ '.')).reverse
          ++ acc
      else [] := by
  induction r with
  | nil => intro acc; simp [pathExtAux]
  | cons c rest ih =>
    intro acc
    by_cases hslash : c = '/'
    · subst hslash
      simp [pathExtAux, List.takeWhile_cons]
    · by_cases hdot : c = '.'
      · subst hdot
        have hl : pathExtAux ('.' :: rest) acc = '.' :: acc := by
          simp [pathExtAux]
        have htw : ('.' :: rest).takeWhile (fun c => c ≠ '/')
            = '.' :: rest.takeWhile (fun c => c ≠ '/') := by
          simp [List.takeWhile_cons]
        have htw2 : ('.' :: rest.takeWhile (fun c => c ≠ '/')).takeWhile
              (fun c => c ≠ '.') = [] := by
          simp [List.takeWhile_cons]
        rw [hl, htw, if_pos (List.mem_cons_self _ _), htw2]
        simp
      · have hstep : pathExtAux (c :: rest) acc = pathExtAux rest (c :: acc) := by
          simp [pathExtAux, hslash, hdot]
        have htw : (c :: rest).takeWhile (fun c => c ≠ '/')
            = c :: rest.takeWhile (fun c => c ≠ '/') := by
          simp [List.takeWhile_cons, hslash]
        have htw2 : (c :: rest.takeWhile (fun c => c ≠ '/')).takeWhile
              (fun c => c ≠ '.')
            = c :: (rest.takeWhile (fun c => c ≠ '/')).takeWhile
                (fun c => c ≠ '.') := by
          simp [List.takeWhile_cons, hdot]
        rw [hstep, ih (c :: acc), htw]
        have hmemIff : ('.' ∈ c :: rest.takeWhile (fun c => c ≠ '/'))
            ↔ ('.' ∈ rest.takeWhile (fun c => c ≠ '/')) := by
          constructor
          · intro hm
            rcases List.mem_cons.mp hm with h | h
            · exact absurd h.symm hdot
            · exact h
          · exact fun h => List.mem_cons_of_mem _ h
        by_cases hmem : '.' ∈ rest.takeWhile (fun c => c ≠ '/')
        · rw [if_pos hmem, if_pos (hmemIff.mpr hmem), htw2, List.reverse_cons]
          simp [List.append_assoc]
        · rw [if_neg hmem, if_neg (fun h => hmem (hmemIff.mp h))]

/-- `path.Ext` computes exactly the last-dot suffix of the last path
component. -/
theorem pathExt_eq_lastDotSuffix_lastComponent (s : List Char) :
    pathExt s = lastDotSuffix (lastComponent s) := by
  rw [pathExt, pathExtAux_eq s.reverse []]
  rw [lastDotSuffix, lastComponent]
  rw [List.reverse_reverse]
  by_cases hmem : '.' ∈ s.reverse.takeWhile (fun c => c ≠ '/')
  · rw [if_pos hmem, if_pos (List.mem_reverse.mpr hmem)]
    simp
  · rw [if_neg hmem, if_neg (fun h => hmem (List.mem_reverse.mp h))]

/-- The `path.Ext` scan never looks past a `'/'`: prepending directory
components (anything before a final `'/'`) leaves the result unchanged. -/
theorem pathExtAux_slash (tail : List Char) (r : List Char) :
    ∀ acc, pathExtAux (r ++ '/' :: tail) acc = pathExtAux r acc := by
  induction r with
  | nil => intro acc; simp [pathExtAux]
  | cons c rest ih =>
    intro acc
    by_cases hslash : c = '/'
    · subst hslash; simp [pathExtAux]
    · by_cases hdot : c = '.'
      · subst hdot; simp [pathExtAux, hslash]
      · simp only [List.cons_append]
        have h1 : pathExtAux (c :: (rest ++ '/' :: tail)) acc
            = pathExtAux (rest ++ '/' :: tail) (c :: acc) := by
          simp [pathExtAux, hslash, hdot]
        have h2 : pathExtAux (c :: rest) acc = pathExtAux rest (c :: acc) := by
          simp [pathExtAux, hslash, hdot]
        rw [h1, h2, ih (c :: acc)]

/-- C5 (counterexample): for the sender-supplied name `"a.b/c"` the last
`'.'` of the name starts the substring `".b/c"`, but the code derives
the empty extension (the dot sits in a directory component), so the
claimed extension rule — the substring from the last `'.'` of the whole
name — does not match the code. -/
theorem dest_name_ext_cex :
    pathExt ("a.b/c".toList) = []
    ∧ lastDotSuffix ("a.b/c".toList) = ".b/c".toList
    ∧ pathExt ("a.b/c".toList) ≠ lastDotSuffix ("a.b/c".toList) := by
  decide

/-- C5 (amended): the destination name is the decimal Unix timestamp
concatenated with the derived extension, where the extension is the
substring from (and including) the last `'.'` *of the final path
component* (the part after the last `'/'`) to the end, or empty if that
component has no `'.'`; prepending directory components never changes
the extension. -/
theorem dest_name_ext (ts : Nat) (s d : List Char) :
    prepareDestFilePath ts s = Nat.toDigits 10 ts ++ pathExt s
    ∧ pathExt s = lastDotSuffix (lastComponent s)
    ∧ pathExt (d ++ '/' :: s) = pathExt s := by
  refine ⟨rfl, pathExt_eq_lastDotSuffix_lastComponent s, ?_⟩
  rw [pathExt, pathExt, List.reverse_append, List.reverse_cons,
    List.append_assoc, List.singleton_append]
  exact pathExtAux_slash d.reverse s.reverse []

end FileShare
